import Mathlib

/-!
Shallow embedding of the `logicpro-timing` repository (sources
`logicpro_timing/cue_reader.py`, `logicpro_timing/parsing/helpers.py`,
`logicpro_timing/elm_output/elm_output.py`) together with theorems settling
the specification claims about it.

Conventions of the embedding:
* Python `Decimal` values are modelled as exact rationals (`ℚ`); the
  specification states that all arithmetic is exact decimal arithmetic.
* `datetime.timedelta` values are modelled by their microsecond count (`ℤ`);
  the `timedelta(microseconds=int(x))` construction is modelled by rational
  truncation toward zero (`ratTrunc`), which is what Python `int()` does.
* Parsed integers are modelled as `ℤ`; the attrs converters
  `int_to_zero_index` / `strip_int_trailing_period` both subtract 1 from the
  already-parsed integer (the trailing-period stripping is purely lexical).
* Generators are modelled as the lists of the items they yield.
-/

namespace CueReader

/-- Model of `TICKS_PER_BEAT = 960` in `cue_reader.py`. -/
def TICKS_PER_BEAT : ℤ := 960

/-- Model of `int_to_zero_index`: converts a 1-indexed source field to the
0-indexed internal value. -/
def int_to_zero_index (n : ℤ) : ℤ := n - 1

/-- Model of `strip_int_trailing_period` applied to an already-parsed
integer: the period stripping is lexical, the numeric effect is `- 1`. -/
def strip_int_trailing_period (n : ℤ) : ℤ := n - 1

/-- Model of `seconds_per_beat(tempo) = Decimal(60) / Decimal(tempo)`. -/
def seconds_per_beat (tempo : ℚ) : ℚ := 60 / tempo

/-- Model of the `TimeSignature` attrs class: `beats` and `division`. -/
structure TimeSignature where
  beats : ℤ
  division : ℤ
deriving DecidableEq, Repr

/-- Model of the `Position` attrs class, with the four 0-indexed axes it
stores after conversion. -/
structure Position where
  measure : ℤ
  beat : ℤ
  division : ℤ
  tick : ℤ
deriving DecidableEq, Repr

/-- Model of constructing `Position(m, b, d, t)` from 1-indexed source
fields: every axis goes through its attrs converter (`int_to_zero_index`,
and `strip_int_trailing_period` for the tick). -/
def Position.mk1 (m b d t : ℤ) : Position :=
  ⟨int_to_zero_index m, int_to_zero_index b, int_to_zero_index d,
    strip_int_trailing_period t⟩

/-- Truncation of a rational toward zero, the behaviour of Python `int()`
on a `Decimal`. -/
def ratTrunc (q : ℚ) : ℤ := q.num.tdiv q.den

/-- Model of `Position.to_timedelta(self, tempo, time_signature)`: the
microsecond count of the returned `timedelta`, with the expression tree of
the source preserved. -/
def Position.to_timedelta (p : Position) (tempo : ℚ) (ts : TimeSignature) : ℤ :=
  ratTrunc
    (seconds_per_beat tempo
      * 1000000
      * ((p.measure : ℚ) * (ts.beats : ℚ)
          + (p.beat : ℚ)
          + (p.division : ℚ) * 1 / (ts.division : ℚ)
          + (p.tick : ℚ) * 1 / (TICKS_PER_BEAT : ℚ)))

/-- The specification's `positionSeconds(position, tempo, meter)` contract,
written from the spec's formula (secondsPerBeat * beatsElapsed); used to
compare the source definition against the spec. -/
def positionSecondsSpec (p : Position) (tempo : ℚ) (meter : TimeSignature) : ℚ :=
  (60 / tempo)
    * ((p.measure : ℚ) * (meter.beats : ℚ)
        + (p.beat : ℚ)
        + (p.division : ℚ) / (meter.division : ℚ)
        + (p.tick : ℚ) / 960)

/-- The specification's microsecond value before truncation:
`(60/tempo) * 1000000 * beatsElapsed`. -/
def positionMicrosecondsSpec (p : Position) (tempo : ℚ) (meter : TimeSignature) : ℚ :=
  1000000 * positionSecondsSpec p tempo meter

/-- The lexicographic strict order on positions, by
(measure, beat, division, tick); this is the order the attrs-generated
comparison methods implement. -/
def Position.lexLt (p q : Position) : Prop :=
  p.measure < q.measure
    ∨ (p.measure = q.measure
        ∧ (p.beat < q.beat
            ∨ (p.beat = q.beat
                ∧ (p.division < q.division
                    ∨ (p.division = q.division ∧ p.tick < q.tick)))))

instance (p q : Position) : Decidable (p.lexLt q) := by
  unfold Position.lexLt; infer_instance

/-- The lexicographic (non-strict) order on positions as a boolean
comparison, used as the sort key comparison of the merged stream. -/
def posLe (p q : Position) : Bool :=
  decide (p.measure < q.measure)
    || (decide (p.measure = q.measure)
        && (decide (p.beat < q.beat)
            || (decide (p.beat = q.beat)
                && (decide (p.division < q.division)
                    || (decide (p.division = q.division)
                        && decide (p.tick ≤ q.tick))))))

theorem posLe_refl (p : Position) : posLe p p = true := by
  simp [posLe]

theorem posLe_trans (a b c : Position) (hab : posLe a b = true)
    (hbc : posLe b c = true) : posLe a c = true := by
  simp only [posLe, Bool.or_eq_true, Bool.and_eq_true, decide_eq_true_eq] at *
  rcases hab with h1 | ⟨e1, h1⟩ <;> rcases hbc with h2 | ⟨e2, h2⟩
  · exact Or.inl (h1.trans h2)
  · exact Or.inl (e2 ▸ h1)
  · exact Or.inl (e1 ▸ h2)
  · refine Or.inr ⟨e1.trans e2, ?_⟩
    rcases h1 with h1 | ⟨f1, h1⟩ <;> rcases h2 with h2 | ⟨f2, h2⟩
    · exact Or.inl (h1.trans h2)
    · exact Or.inl (f2 ▸ h1)
    · exact Or.inl (f1 ▸ h2)
    · refine Or.inr ⟨f1.trans f2, ?_⟩
      rcases h1 with h1 | ⟨g1, h1⟩ <;> rcases h2 with h2 | ⟨g2, h2⟩
      · exact Or.inl (h1.trans h2)
      · exact Or.inl (g2 ▸ h1)
      · exact Or.inl (g1 ▸ h2)
      · exact Or.inr ⟨g1.trans g2, h1.trans h2⟩

theorem posLe_total (a b : Position) : (posLe a b || posLe b a) = true := by
  simp only [posLe, Bool.or_eq_true, Bool.and_eq_true, decide_eq_true_eq]
  omega

end CueReader

section RatTruncLemmas

open CueReader

theorem ratTrunc_intCast (n : ℤ) : ratTrunc ((n : ℚ)) = n := by
  simp [ratTrunc, Rat.num_intCast, Rat.den_intCast, Int.tdiv_one]

theorem ratTrunc_eq_floor_of_nonneg {q : ℚ} (h : 0 ≤ q) : ratTrunc q = ⌊q⌋ := by
  rw [ratTrunc, Rat.floor_def,
    Int.tdiv_eq_ediv (Rat.num_nonneg.mpr h) (Int.ofNat_le.mpr (Nat.zero_le _))]

theorem ratTrunc_mono_of_nonneg {q r : ℚ} (hq : 0 ≤ q) (hqr : q ≤ r) :
    ratTrunc q ≤ ratTrunc r := by
  rw [ratTrunc_eq_floor_of_nonneg hq, ratTrunc_eq_floor_of_nonneg (hq.trans hqr)]
  exact Int.floor_le_floor hqr

end RatTruncLemmas

namespace CueReader

/-- Model of the `EventLength` attrs class (a musical span). -/
structure EventLength where
  measures : ℤ
  beats : ℤ
  divisions : ℤ
  ticks : ℤ
deriving DecidableEq, Repr

/-- Model of the `TempoEvent` attrs class: a position, a `Decimal` tempo and
the wall-clock `timedelta` field parsed from the source line (microseconds). -/
structure TempoEvent where
  position : Position
  tempo : ℚ
  time : ℤ
deriving DecidableEq, Repr

/-- Model of the `TimeSignatureEvent` attrs class. -/
structure TimeSignatureEvent where
  position : Position
  time_signature : TimeSignature
deriving DecidableEq, Repr

/-- Model of the `NoteEvent` attrs class (a payload event). -/
structure NoteEvent where
  position : Position
  title : List Char
  track : ℤ
  length : EventLength
deriving DecidableEq, Repr

/-- The merged stream element: one of the three event classes chained
together in `EventStream.__init__`. The Python code dispatches by attribute
probing (`hasattr`); the model dispatches on the constructor. -/
inductive StreamEvent where
  | tempo (e : TempoEvent)
  | sig (e : TimeSignatureEvent)
  | note (e : NoteEvent)
deriving DecidableEq, Repr

/-- The `position` attribute of a merged stream element (the sort key). -/
def StreamEvent.position : StreamEvent → Position
  | .tempo e => e.position
  | .sig e => e.position
  | .note e => e.position

namespace EventStream

/-- The mutable fields of an `EventStream` object: current anchor time
(microseconds), anchor position, active tempo, active signature, and the
(unused) last tempo-change wall-clock time. -/
structure State where
  curr_time : ℤ
  curr_position : Position
  curr_tempo : ℚ
  curr_signature : TimeSignature
  last_tempo_change : ℤ
deriving DecidableEq, Repr

/-- Model of `EventStream.__init__`'s sorted merge: the three event lists
are chained (tempos, then signatures, then events) and stably sorted by the
`position` attribute. Python's `sorted` is a stable sort; `List.mergeSort`
is the stable sort of the Lean library. -/
def mergedStream (tempos : List TempoEvent) (signatures : List TimeSignatureEvent)
    (events : List NoteEvent) : List StreamEvent :=
  (tempos.map StreamEvent.tempo ++ signatures.map StreamEvent.sig
      ++ events.map StreamEvent.note).mergeSort
    (fun a b => posLe a.position b.position)

/-- Model of the state initialization in `EventStream.__init__`: time zero,
position `Position(1, 1, 1, 1)` (which the converters turn into the
0-indexed origin), tempo `Decimal(120)`, signature `TimeSignature(4, 4)`.
The `default_tempo` parameter of the constructor is accepted and, exactly as
in the source, never used. -/
def initState (default_tempo : ℚ) : State :=
  { curr_time := 0
    curr_position := Position.mk1 1 1 1 1
    curr_tempo := 120
    curr_signature := TimeSignature.mk 4 4
    last_tempo_change := 0 }

/-- Model of `EventStream._compute_time`: anchor time plus the difference
of the event's and the anchor's conversions under the active tempo and
signature. -/
def computeTime (s : State) (eventPos : Position) : ℤ :=
  s.curr_time
    + eventPos.to_timedelta s.curr_tempo s.curr_signature
    - s.curr_position.to_timedelta s.curr_tempo s.curr_signature

/-- One iteration of the loop body of `EventStream.event_times`: computes
the new time, dispatches on the event kind (tempo events update the active
tempo, signature events the active signature, note events are emitted), and
unconditionally advances the anchor. -/
def step (s : State) : StreamEvent → State × Option (ℤ × NoteEvent)
  | .tempo e =>
      ({ s with
          curr_time := computeTime s e.position
          curr_position := e.position
          curr_tempo := e.tempo
          last_tempo_change := e.time }, none)
  | .sig e =>
      ({ s with
          curr_time := computeTime s e.position
          curr_position := e.position
          curr_signature := e.time_signature }, none)
  | .note e =>
      ({ s with
          curr_time := computeTime s e.position
          curr_position := e.position }, some (computeTime s e.position, e))

/-- The run of `EventStream.event_times` over a stream from a given state:
the list of `(new_time, item)` pairs the generator yields. -/
def run (s : State) : List StreamEvent → List (ℤ × NoteEvent)
  | [] => []
  | ev :: rest =>
      match step s ev with
      | (s', some p) => p :: run s' rest
      | (s', none) => run s' rest

/-- Model of `EventStream(tempos, signatures, events, default_tempo)`
followed by listing `event_times()`. -/
def event_times (tempos : List TempoEvent) (signatures : List TimeSignatureEvent)
    (events : List NoteEvent) (default_tempo : ℚ) : List (ℤ × NoteEvent) :=
  run (initState default_tempo) (mergedStream tempos signatures events)

end EventStream

end CueReader

section PositionTimeClaims

open CueReader

theorem ratTrunc_eq_of_eq_intCast {q : ℚ} {n : ℤ} (h : q = (n : ℚ)) :
    ratTrunc q = n := h ▸ ratTrunc_intCast n

/-- C2: for every Position, tempo > 0 and meter with positive fields,
`Position.to_timedelta` returns exactly the truncation (toward zero) of the
exact-decimal microsecond value `(60/tempo) * 1000000 * (bar*beatsPerMeasure
+ beat + subdivision/beatUnit + tick/960)`; and at tempo 120 in 4/4 a delta
of one full bar (source coordinates 1,1,1,1 to 2,1,1,1) elapses exactly
2.0 seconds, i.e. 2000000 microseconds. -/
theorem C2_to_timedelta_is_truncated_exact_decimal
    (p : Position) (tempo : ℚ) (ts : TimeSignature)
    (ht : 0 < tempo) (hb : 0 < ts.beats) (hd : 0 < ts.division) :
    p.to_timedelta tempo ts = ratTrunc (positionMicrosecondsSpec p tempo ts)
      ∧ (Position.mk1 2 1 1 1).to_timedelta 120 (TimeSignature.mk 4 4)
          - (Position.mk1 1 1 1 1).to_timedelta 120 (TimeSignature.mk 4 4)
        = 2000000 := by
  constructor
  · unfold Position.to_timedelta positionMicrosecondsSpec positionSecondsSpec
      seconds_per_beat TICKS_PER_BEAT
    congr 1
    push_cast
    ring
  · have e1 : (Position.mk1 2 1 1 1).to_timedelta 120 (TimeSignature.mk 4 4)
        = 2000000 := by
      unfold Position.to_timedelta
      refine ratTrunc_eq_of_eq_intCast ?_
      norm_num [Position.mk1, int_to_zero_index, strip_int_trailing_period,
        seconds_per_beat, TICKS_PER_BEAT]
    have e2 : (Position.mk1 1 1 1 1).to_timedelta 120 (TimeSignature.mk 4 4)
        = 0 := by
      unfold Position.to_timedelta
      refine ratTrunc_eq_of_eq_intCast ?_
      norm_num [Position.mk1, int_to_zero_index, strip_int_trailing_period,
        seconds_per_beat, TICKS_PER_BEAT]
    rw [e1, e2]
    decide

/-- Witness for C2 at the concrete input `p = (0,0,0,0)`, tempo 120,
meter 4/4. -/
theorem C2_witness :
    (0 : ℚ) < 120 ∧ (0 : ℤ) < 4 ∧
      ((Position.mk 0 0 0 0).to_timedelta 120 (TimeSignature.mk 4 4)
          = ratTrunc (positionMicrosecondsSpec (Position.mk 0 0 0 0) 120
              (TimeSignature.mk 4 4))
        ∧ (Position.mk1 2 1 1 1).to_timedelta 120 (TimeSignature.mk 4 4)
            - (Position.mk1 1 1 1 1).to_timedelta 120 (TimeSignature.mk 4 4)
          = 2000000) :=
  ⟨by norm_num, by decide,
    C2_to_timedelta_is_truncated_exact_decimal (Position.mk 0 0 0 0) 120
      (TimeSignature.mk 4 4) (by norm_num) (by decide) (by decide)⟩

/-- C3 counterexample: positions `(0,0,0,900)` and `(0,0,1,0)` (0-indexed)
under tempo 120 and meter 4/4 satisfy every hypothesis of the claim, the
second is lexicographically strictly greater, yet it converts to a strictly
smaller time (125000 microseconds against 468750), refuting the claimed
monotonicity over all positions. -/
theorem C3_counterexample :
    Position.lexLt (Position.mk 0 0 0 900) (Position.mk 0 0 1 0)
      ∧ (0 : ℚ) < 120 ∧ (0 : ℤ) < 4
      ∧ (Position.mk 0 0 1 0).to_timedelta 120 (TimeSignature.mk 4 4)
          < (Position.mk 0 0 0 900).to_timedelta 120 (TimeSignature.mk 4 4) := by
  refine ⟨by decide, by norm_num, by decide, ?_⟩
  have e1 : (Position.mk 0 0 1 0).to_timedelta 120 (TimeSignature.mk 4 4)
      = 125000 := by
    unfold Position.to_timedelta
    refine ratTrunc_eq_of_eq_intCast ?_
    norm_num [seconds_per_beat, TICKS_PER_BEAT]
  have e2 : (Position.mk 0 0 0 900).to_timedelta 120 (TimeSignature.mk 4 4)
      = 468750 := by
    unfold Position.to_timedelta
    refine ratTrunc_eq_of_eq_intCast ?_
    norm_num [seconds_per_beat, TICKS_PER_BEAT]
  rw [e1, e2]
  decide

/-- Canonical range of a position under a meter: every axis nonnegative,
the beat below the beats-per-measure, the subdivision below the beat unit,
and the tick within one subdivision unit (`tick * beatUnit ≤ 960`). The
claimed monotonicity holds on this range. -/
def CueReader.Position.inRange (p : Position) (ts : TimeSignature) : Prop :=
  0 ≤ p.measure ∧ 0 ≤ p.beat ∧ p.beat < ts.beats
    ∧ 0 ≤ p.division ∧ p.division < ts.division
    ∧ 0 ≤ p.tick ∧ p.tick * ts.division ≤ 960

instance (p : Position) (ts : TimeSignature) : Decidable (p.inRange ts) := by
  unfold Position.inRange; infer_instance

theorem beatsExpr_mono (B U : ℚ) (hB : 1 ≤ B) (hU : 1 ≤ U)
    (m1 b1 d1 t1 m2 b2 d2 t2 : ℚ)
    (hm1 : 0 ≤ m1) (hb1 : 0 ≤ b1) (hb1B : b1 + 1 ≤ B)
    (hd1 : 0 ≤ d1) (hd1U : d1 + 1 ≤ U) (ht1 : 0 ≤ t1) (ht1U : t1 * U ≤ 960)
    (hm2 : 0 ≤ m2) (hb2 : 0 ≤ b2) (hd2 : 0 ≤ d2) (ht2 : 0 ≤ t2)
    (hlex : m1 + 1 ≤ m2
      ∨ (m1 = m2 ∧ (b1 + 1 ≤ b2
          ∨ (b1 = b2 ∧ (d1 + 1 ≤ d2 ∨ (d1 = d2 ∧ t1 ≤ t2)))))) :
    m1 * B + b1 + d1 / U + t1 / 960
      ≤ m2 * B + b2 + d2 / U + t2 / 960 := by
  have hU0 : (0 : ℚ) < U := lt_of_lt_of_le one_pos hU
  have hB0 : (0 : ℚ) ≤ B := le_trans zero_le_one hB
  have hd2U : (0 : ℚ) ≤ d2 / U := div_nonneg hd2 hU0.le
  have ht2' : (0 : ℚ) ≤ t2 / 960 := div_nonneg ht2 (by norm_num)
  have hdU1 : d1 / U ≤ (U - 1) / U :=
    (div_le_div_iff_of_pos_right hU0).mpr (by linarith)
  have htU1 : t1 / 960 ≤ 1 / U := by
    rw [div_le_div_iff₀ (by norm_num) hU0]
    linarith
  have hcap : d1 / U + t1 / 960 ≤ 1 := by
    have : (U - 1) / U + 1 / U = 1 := by
      rw [div_add_div_same]
      have : U - 1 + 1 = U := by ring
      rw [this, div_self hU0.ne']
    linarith
  rcases hlex with hm | ⟨em, hrest⟩
  · -- measure rollover
    have h1 : m1 * B + b1 + d1 / U + t1 / 960 ≤ (m1 + 1) * B := by
      have : m1 * B + b1 + d1 / U + t1 / 960 ≤ m1 * B + (B - 1) + 1 := by
        linarith
      linarith [this, show m1 * B + (B - 1) + 1 = (m1 + 1) * B by ring]
    have h2 : (m1 + 1) * B ≤ m2 * B := mul_le_mul_of_nonneg_right hm hB0
    linarith
  · subst em
    rcases hrest with hbt | ⟨eb, hrest⟩
    · -- beat rollover
      linarith
    · subst eb
      rcases hrest with hdv | ⟨ed, htk⟩
      · -- subdivision rollover
        have h1 : d1 / U + t1 / 960 ≤ (d1 + 1) / U := by
          have : d1 / U + 1 / U = (d1 + 1) / U := div_add_div_same d1 1 U
          linarith
        have h2 : (d1 + 1) / U ≤ d2 / U :=
          (div_le_div_iff_of_pos_right hU0).mpr hdv
        linarith
      · subst ed
        have h1 : t1 / 960 ≤ t2 / 960 :=
          (div_le_div_iff_of_pos_right (by norm_num)).mpr htk
        linarith

/-- C3 (amended): under a fixed tempo > 0 and meter with positive fields,
conversion is idempotent, and it is monotone with respect to the
lexicographic order on positions that lie in the canonical range of the
meter (beat below beatsPerMeasure, subdivision below beatUnit, tick within
one subdivision unit); outside that range monotonicity fails, as the
counterexample shows. -/
theorem C3_conversion_idempotent_and_monotone_in_range
    (p q : Position) (tempo : ℚ) (ts : TimeSignature)
    (ht : 0 < tempo) (hb : 0 < ts.beats) (hd : 0 < ts.division)
    (hp : p.inRange ts) (hq : q.inRange ts) (hlt : p.lexLt q) :
    p.to_timedelta tempo ts = p.to_timedelta tempo ts
      ∧ p.to_timedelta tempo ts ≤ q.to_timedelta tempo ts := by
  refine ⟨rfl, ?_⟩
  obtain ⟨hm1, hb1, hb1B, hd1, hd1U, ht1, ht1U⟩ := hp
  obtain ⟨hm2, hb2, hb2B, hd2, hd2U, ht2, ht2U⟩ := hq
  have hB : (1 : ℚ) ≤ (ts.beats : ℚ) := by exact_mod_cast hb
  have hU : (1 : ℚ) ≤ (ts.division : ℚ) := by exact_mod_cast hd
  have hU0 : (0 : ℚ) < (ts.division : ℚ) := lt_of_lt_of_le one_pos hU
  have hspb : (0 : ℚ) < seconds_per_beat tempo * 1000000 := by
    unfold seconds_per_beat
    positivity
  have hbeats : (p.measure : ℚ) * (ts.beats : ℚ) + (p.beat : ℚ)
        + (p.division : ℚ) * 1 / (ts.division : ℚ)
        + (p.tick : ℚ) * 1 / ((TICKS_PER_BEAT : ℤ) : ℚ)
      ≤ (q.measure : ℚ) * (ts.beats : ℚ) + (q.beat : ℚ)
        + (q.division : ℚ) * 1 / (ts.division : ℚ)
        + (q.tick : ℚ) * 1 / ((TICKS_PER_BEAT : ℤ) : ℚ) := by
    have key := beatsExpr_mono (ts.beats : ℚ) (ts.division : ℚ) hB hU
      (p.measure : ℚ) (p.beat : ℚ) (p.division : ℚ) (p.tick : ℚ)
      (q.measure : ℚ) (q.beat : ℚ) (q.division : ℚ) (q.tick : ℚ)
      (by exact_mod_cast hm1) (by exact_mod_cast hb1)
      (by exact_mod_cast hb1B) (by exact_mod_cast hd1)
      (by exact_mod_cast hd1U) (by exact_mod_cast ht1)
      (by exact_mod_cast ht1U)
      (by exact_mod_cast hm2) (by exact_mod_cast hb2)
      (by exact_mod_cast hd2) (by exact_mod_cast ht2)
      (by
        rcases hlt with h | ⟨e, h⟩
        · exact Or.inl (by exact_mod_cast h)
        · refine Or.inr ⟨by exact_mod_cast e, ?_⟩
          rcases h with h | ⟨e, h⟩
          · exact Or.inl (by exact_mod_cast h)
          · refine Or.inr ⟨by exact_mod_cast e, ?_⟩
            rcases h with h | ⟨e, h⟩
            · exact Or.inl (by exact_mod_cast h)
            · exact Or.inr ⟨by exact_mod_cast e, by exact_mod_cast h.le⟩)
    have cast960 : ((TICKS_PER_BEAT : ℤ) : ℚ) = 960 := by
      norm_num [TICKS_PER_BEAT]
    rw [cast960]
    calc (p.measure : ℚ) * (ts.beats : ℚ) + (p.beat : ℚ)
          + (p.division : ℚ) * 1 / (ts.division : ℚ)
          + (p.tick : ℚ) * 1 / (960 : ℚ)
        = (p.measure : ℚ) * (ts.beats : ℚ) + (p.beat : ℚ)
          + (p.division : ℚ) / (ts.division : ℚ) + (p.tick : ℚ) / 960 := by
          ring
      _ ≤ (q.measure : ℚ) * (ts.beats : ℚ) + (q.beat : ℚ)
          + (q.division : ℚ) / (ts.division : ℚ) + (q.tick : ℚ) / 960 := key
      _ = (q.measure : ℚ) * (ts.beats : ℚ) + (q.beat : ℚ)
          + (q.division : ℚ) * 1 / (ts.division : ℚ)
          + (q.tick : ℚ) * 1 / (960 : ℚ) := by ring
  unfold Position.to_timedelta
  refine ratTrunc_mono_of_nonneg ?_ ?_
  · have hbeats0 : (0 : ℚ) ≤ (p.measure : ℚ) * (ts.beats : ℚ) + (p.beat : ℚ)
        + (p.division : ℚ) * 1 / (ts.division : ℚ)
        + (p.tick : ℚ) * 1 / ((TICKS_PER_BEAT : ℤ) : ℚ) := by
      have c1 : (0 : ℚ) ≤ (p.measure : ℚ) * (ts.beats : ℚ) := by
        have : (0 : ℚ) ≤ (p.measure : ℚ) := by exact_mod_cast hm1
        exact mul_nonneg this (le_trans zero_le_one hB)
      have c2 : (0 : ℚ) ≤ (p.beat : ℚ) := by exact_mod_cast hb1
      have c3 : (0 : ℚ) ≤ (p.division : ℚ) * 1 / (ts.division : ℚ) := by
        have : (0 : ℚ) ≤ (p.division : ℚ) := by exact_mod_cast hd1
        positivity
      have c4 : (0 : ℚ) ≤ (p.tick : ℚ) * 1 / ((TICKS_PER_BEAT : ℤ) : ℚ) := by
        have h1 : (0 : ℚ) ≤ (p.tick : ℚ) := by exact_mod_cast ht1
        have h2 : (0 : ℚ) ≤ ((TICKS_PER_BEAT : ℤ) : ℚ) := by
          norm_num [TICKS_PER_BEAT]
        positivity
      linarith
    exact mul_nonneg hspb.le hbeats0
  · exact mul_le_mul_of_nonneg_left hbeats hspb.le

/-- Witness for the amended C3 at the concrete positions `(0,0,0,0)` and
`(1,2,3,100)` under tempo 120 and meter 4/4. -/
theorem C3_amended_witness :
    (Position.mk 0 0 0 0).to_timedelta 120 (TimeSignature.mk 4 4)
        = (Position.mk 0 0 0 0).to_timedelta 120 (TimeSignature.mk 4 4)
      ∧ (Position.mk 0 0 0 0).to_timedelta 120 (TimeSignature.mk 4 4)
        ≤ (Position.mk 1 2 3 100).to_timedelta 120 (TimeSignature.mk 4 4) :=
  C3_conversion_idempotent_and_monotone_in_range
    (Position.mk 0 0 0 0) (Position.mk 1 2 3 100) 120 (TimeSignature.mk 4 4)
    (by norm_num) (by decide) (by decide) (by decide) (by decide) (by decide)

end PositionTimeClaims

section StreamClaims

open CueReader CueReader.EventStream

/-- C1: in the incremental walk, from any reachable state, a TempoChange at
position P immediately followed by a Payload at the identical position P
yields zero elapsed time (the payload is emitted at exactly the tempo
change's anchor time, and the anchor time does not move), and a Payload at
a position Q strictly after P is then emitted with its delta computed from
the anchor under the NEW tempo t (and the unchanged active signature), not
under the previous tempo. -/
theorem C1_tempo_change_anchor_difference
    (s : EventStream.State) (P Q : Position) (t : ℚ) (tm : ℤ)
    (n1 n2 : NoteEvent)
    (h1 : n1.position = P) (h2 : n2.position = Q) (hPQ : P.lexLt Q) :
    (step (step s (StreamEvent.tempo ⟨P, t, tm⟩)).1 (StreamEvent.note n1)).2
        = some ((step s (StreamEvent.tempo ⟨P, t, tm⟩)).1.curr_time, n1)
      ∧ (step (step s (StreamEvent.tempo ⟨P, t, tm⟩)).1
            (StreamEvent.note n1)).1.curr_time
          = (step s (StreamEvent.tempo ⟨P, t, tm⟩)).1.curr_time
      ∧ (step (step (step s (StreamEvent.tempo ⟨P, t, tm⟩)).1
              (StreamEvent.note n1)).1 (StreamEvent.note n2)).2
          = some ((step s (StreamEvent.tempo ⟨P, t, tm⟩)).1.curr_time
                + (Q.to_timedelta t s.curr_signature
                    - P.to_timedelta t s.curr_signature), n2) := by
  subst h1 h2
  refine ⟨?_, ?_, ?_⟩
  · simp [step, computeTime]
  · simp [step, computeTime]
  · simp only [step, computeTime]
    congr 1
    congr 1
    omega

/-- Witness for C1 at a concrete state and concrete events: tempo change to
60 BPM at the origin, payload at the origin, then payload one bar later. -/
theorem C1_witness :
    ((Position.mk 0 0 0 0).lexLt (Position.mk 1 0 0 0))
      ∧ ((step (step (initState 120)
            (StreamEvent.tempo ⟨Position.mk 0 0 0 0, 60, 0⟩)).1
            (StreamEvent.note ⟨Position.mk 0 0 0 0, ['a'], 1,
              EventLength.mk 0 0 0 0⟩)).2
          = some ((step (initState 120)
              (StreamEvent.tempo ⟨Position.mk 0 0 0 0, 60, 0⟩)).1.curr_time,
              ⟨Position.mk 0 0 0 0, ['a'], 1, EventLength.mk 0 0 0 0⟩)
        ∧ (step (step (initState 120)
              (StreamEvent.tempo ⟨Position.mk 0 0 0 0, 60, 0⟩)).1
              (StreamEvent.note ⟨Position.mk 0 0 0 0, ['a'], 1,
                EventLength.mk 0 0 0 0⟩)).1.curr_time
            = (step (initState 120)
                (StreamEvent.tempo ⟨Position.mk 0 0 0 0, 60, 0⟩)).1.curr_time
        ∧ (step (step (step (initState 120)
                (StreamEvent.tempo ⟨Position.mk 0 0 0 0, 60, 0⟩)).1
                (StreamEvent.note ⟨Position.mk 0 0 0 0, ['a'], 1,
                  EventLength.mk 0 0 0 0⟩)).1
              (StreamEvent.note ⟨Position.mk 1 0 0 0, ['b'], 1,
                EventLength.mk 0 0 0 0⟩)).2
            = some ((step (initState 120)
                  (StreamEvent.tempo ⟨Position.mk 0 0 0 0, 60, 0⟩)).1.curr_time
                + ((Position.mk 1 0 0 0).to_timedelta 60
                      (initState 120).curr_signature
                    - (Position.mk 0 0 0 0).to_timedelta 60
                      (initState 120).curr_signature),
                ⟨Position.mk 1 0 0 0, ['b'], 1, EventLength.mk 0 0 0 0⟩)) :=
  ⟨by decide,
    C1_tempo_change_anchor_difference (initState 120) (Position.mk 0 0 0 0)
      (Position.mk 1 0 0 0) 60 0
      ⟨Position.mk 0 0 0 0, ['a'], 1, EventLength.mk 0 0 0 0⟩
      ⟨Position.mk 1 0 0 0, ['b'], 1, EventLength.mk 0 0 0 0⟩
      rfl rfl (by decide)⟩

/-- C10: the `default_tempo` constructor parameter has no effect on the
emitted event times, because the active tempo is initialized to the
constant 120 regardless of the parameter. -/
theorem C10_default_tempo_has_no_effect
    (tempos : List TempoEvent) (signatures : List TimeSignatureEvent)
    (events : List NoteEvent) (d1 d2 : ℚ) :
    event_times tempos signatures events d1
      = event_times tempos signatures events d2 := rfl

end StreamClaims

namespace ParsingHelpers

/-- The three reserved break marker characters of `BREAK_TYPE_MAPPING` in
`parsing/helpers.py` (values for the Syllable, Line and Page keys). -/
def BREAK_TYPE_MAPPING (break_type : String) : Char :=
  if break_type = "Syllable" then '•'
  else if break_type = "Line" then '¬'
  else '¶'

/-- The list of marker characters, i.e. `BREAK_TYPE_MAPPING.values()`. -/
def breakMarkerValues : List Char := ['•', '¬', '¶']

/-- Model of `text_with_break_type` in `parsing/helpers.py`: if the text
ends in any marker character the marker is removed (the Syllable `elif`
branch of the source is subsumed by the first branch and kept here for
fidelity); otherwise a single trailing space is appended. No break kind is
returned by this variant. -/
def text_with_break_type (text : List Char) : List Char :=
  match text.getLast? with
  | none => text ++ [' ']
  | some c =>
      if c ∈ breakMarkerValues then text.dropLast
      else if c = BREAK_TYPE_MAPPING "Syllable" then text.dropLast
      else text ++ [' ']

/-- Model of a lyric token dict `{'text': ..., 'time': ...}` consumed by
`has_break` and `print_lyrics_tree` (time in microseconds). -/
structure Lyric where
  text : List Char
  time : ℤ
deriving DecidableEq, Repr

/-- Model of `has_break(break_types, lyric)`: the lyric text ends with the
marker of one of the given break types. `str.endswith` with a one-character
suffix means the last character equals it (false on an empty string). -/
def has_break (break_types : List String) (lyric : Lyric) : Bool :=
  break_types.any
    (fun bt => lyric.text.getLast? == some (BREAK_TYPE_MAPPING bt))

/-- Model of `no_break(break_types, lyric)`. -/
def no_break (break_types : List String) (lyric : Lyric) : Bool :=
  !has_break break_types lyric

/-- The accumulator-passing form of `groupwhile`: `inner` is the pending
deque; each item is appended, and whenever the predicate fails the pending
group is yielded and a fresh one started; at end of input the pending group
is yielded unconditionally. -/
def groupwhileGo (p : α → Bool) (inner : List α) : List α → List (List α)
  | [] => [inner]
  | i :: rest =>
      if p i then groupwhileGo p (inner ++ [i]) rest
      else (inner ++ [i]) :: groupwhileGo p [] rest

/-- Model of `groupwhile(predicate, iterable)` in `parsing/helpers.py`,
as the list of groups the generator yields (each group read at the moment
it is yielded). -/
def groupwhile (p : α → Bool) (iterable : List α) : List (List α) :=
  groupwhileGo p [] iterable

theorem groupwhileGo_ne_nil (p : α → Bool) (inner : List α) (xs : List α) :
    groupwhileGo p inner xs ≠ [] := by
  induction xs generalizing inner with
  | nil => simp [groupwhileGo]
  | cons i rest ih =>
      simp only [groupwhileGo]
      by_cases h : p i
      · simpa [h] using ih (inner ++ [i])
      · simp [h]

theorem groupwhileGo_append_fail (p : α → Bool) (x : α) (hx : p x = false)
    (xs : List α) : ∀ inner : List α,
    (groupwhileGo p inner (xs ++ [x])).getLast? = some [] := by
  induction xs with
  | nil =>
      intro inner
      simp [groupwhileGo, hx]
  | cons i rest ih =>
      intro inner
      simp only [List.cons_append, groupwhileGo]
      by_cases h : p i = true
      · rw [if_pos h]
        exact ih (inner ++ [i])
      · rw [if_neg h]
        have hne := groupwhileGo_ne_nil p [] (rest ++ [x])
        cases hgl : groupwhileGo p [] (rest ++ [x]) with
        | nil => exact absurd hgl hne
        | cons g gs =>
            have hlast := ih []
            rw [hgl] at hlast
            rw [List.getLast?_cons_cons]
            exact hlast

theorem groupwhileGo_all_true (p : α → Bool) (xs : List α)
    (h : ∀ x ∈ xs, p x = true) : ∀ inner : List α,
    groupwhileGo p inner xs = [inner ++ xs] := by
  induction xs with
  | nil => intro inner; simp [groupwhileGo]
  | cons i rest ih =>
      intro inner
      have hi : p i = true := h i (List.mem_cons_self i rest)
      simp only [groupwhileGo, hi, if_pos]
      rw [ih (fun x hx => h x (List.mem_cons_of_mem i hx)) (inner ++ [i])]
      simp

/-- C6: the semantics of `groupwhile`. For every predicate, pending group
and input: (a) at end of input the pending group is emitted as a final
group, even when it is empty; (b) an item failing the predicate is
appended to the pending group, which is then emitted and a fresh empty
pending group started; (c) an item passing the predicate is only appended
to the pending group; (d) consequently, an input whose last element fails
the predicate yields a trailing empty group. -/
theorem C6_groupwhile_semantics (p : α → Bool) (x : α) (xs inner : List α) :
    groupwhileGo p inner [] = [inner]
      ∧ (p x = false →
          groupwhileGo p inner (x :: xs) = (inner ++ [x]) :: groupwhile p xs)
      ∧ (p x = true →
          groupwhileGo p inner (x :: xs) = groupwhileGo p (inner ++ [x]) xs)
      ∧ (p x = false →
          (groupwhile p (xs ++ [x])).getLast? = some []) := by
  refine ⟨rfl, ?_, ?_, ?_⟩
  · intro h
    simp [groupwhileGo, h, groupwhile]
  · intro h
    simp [groupwhileGo, h]
  · intro h
    exact groupwhileGo_append_fail p x h xs []

/-- Witness for C6: grouping `[1, 5]` by "less than 2" flushes `[1, 5]` at
the failing item 5 and then emits a trailing empty group. -/
theorem C6_witness :
    groupwhileGo (fun n : ℤ => decide (n < 2)) [] [] = [[]]
      ∧ groupwhileGo (fun n : ℤ => decide (n < 2)) [1] (5 :: [])
          = ([1] ++ [5]) :: groupwhile (fun n : ℤ => decide (n < 2)) []
      ∧ (groupwhile (fun n : ℤ => decide (n < 2)) ([1] ++ [5])).getLast?
          = some [] :=
  ⟨(C6_groupwhile_semantics (fun n : ℤ => decide (n < 2)) 5 [] []).1,
    (C6_groupwhile_semantics (fun n : ℤ => decide (n < 2)) 5 [] [1]).2.1
      (by decide),
    (C6_groupwhile_semantics (fun n : ℤ => decide (n < 2)) 5 [1] []).2.2.2
      (by decide)⟩

end ParsingHelpers

namespace ElmOutput

open ParsingHelpers

/-- Model of the two-level grouping performed by `print_lyrics_tree` in
`elm_output/elm_output.py`: the token stream is split into pages with
`groupwhile(no_break(['Page']), ...)` and each page into lines with
`groupwhile(no_break(['Line']), ...)`; tokens within a line stay flat. -/
def lyricsTree (event_list : List Lyric) : List (List (List Lyric)) :=
  (groupwhile (no_break ["Page"]) event_list).map
    (fun page => groupwhile (no_break ["Line"]) page)

end ElmOutput

section GroupingClaims

open ParsingHelpers ElmOutput

/-- C7: a token sequence in which no token's text ends with the Line or the
Page marker groups into exactly one page containing exactly one line
containing all the tokens in input order. -/
theorem C7_no_breaks_single_page_single_line (tokens : List Lyric)
    (h : ∀ t ∈ tokens,
      t.text.getLast? ≠ some '¬' ∧ t.text.getLast? ≠ some '¶') :
    lyricsTree tokens = [[tokens]] := by
  have hpage : ∀ t ∈ tokens, no_break ["Page"] t = true := by
    intro t ht
    have := (h t ht).2
    simp only [no_break, has_break, List.any_cons, List.any_nil,
      Bool.or_false, Bool.not_eq_true']
    simp only [BREAK_TYPE_MAPPING, if_neg (by decide : ¬("Page" = "Syllable")),
      if_neg (by decide : ¬("Page" = "Line"))]
    simpa using this
  have hline : ∀ t ∈ tokens, no_break ["Line"] t = true := by
    intro t ht
    have := (h t ht).1
    simp only [no_break, has_break, List.any_cons, List.any_nil,
      Bool.or_false, Bool.not_eq_true']
    simp only [BREAK_TYPE_MAPPING, if_neg (by decide : ¬("Line" = "Syllable")),
      if_pos (rfl : ("Line" : String) = "Line")]
    simpa using this
  unfold lyricsTree
  rw [show groupwhile (no_break ["Page"]) tokens = [tokens] by
    simpa using groupwhileGo_all_true (no_break ["Page"]) tokens hpage []]
  rw [List.map_singleton]
  rw [show groupwhile (no_break ["Line"]) tokens = [tokens] by
    simpa using groupwhileGo_all_true (no_break ["Line"]) tokens hline []]

/-- Witness for C7 at the concrete marker-free token list
`[{text: "He", time: 0}, {text: "yo", time: 7}]`. -/
theorem C7_witness :
    lyricsTree [Lyric.mk ['H', 'e'] 0, Lyric.mk ['y', 'o'] 7]
      = [[[Lyric.mk ['H', 'e'] 0, Lyric.mk ['y', 'o'] 7]]] :=
  C7_no_breaks_single_page_single_line
    [Lyric.mk ['H', 'e'] 0, Lyric.mk ['y', 'o'] 7] (by decide)

end GroupingClaims

namespace CueReader

/-- Model of `ELM_BREAK_TYPE_MAPPING` in `cue_reader.py`: marker character
to break-kind name. -/
def ELM_BREAK_TYPE_MAPPING (c : Char) : Option String :=
  if c = '•' then some "Syllable"
  else if c = '¬' then some "Line"
  else if c = '¶' then some "Page"
  else none

/-- Model of `text_with_break_type` in `cue_reader.py`: if the text is
nonempty and its last character is a key of `ELM_BREAK_TYPE_MAPPING`, the
marker is removed and the corresponding kind returned; otherwise the text
is returned unchanged with kind `'Word'`. -/
def text_with_break_type (text : List Char) : List Char × String :=
  match text.getLast? with
  | none => (text, "Word")
  | some c =>
      match ELM_BREAK_TYPE_MAPPING c with
      | some kind => (text.dropLast, kind)
      | none => (text, "Word")

end CueReader

section BreakClassifierClaims

open CueReader ParsingHelpers

/-- C5 counterexample: the token `"a"` does not end with a marker, and the
tagging classifier (`cue_reader.text_with_break_type`) returns it with kind
`'Word'` but with its text unchanged — no trailing space is appended, so
the claimed `"a "` result is false. -/
theorem C5_counterexample :
    CueReader.text_with_break_type ['a'] = (['a'], "Word")
      ∧ (['a'], ("Word" : String)) ≠ (['a', ' '], "Word") := by
  constructor
  · rfl
  · decide

/-- C5 (amended): the marker behaviour is split across the two
`text_with_break_type` variants. The tagging variant in `cue_reader.py`
removes a final marker character and tags the token with the corresponding
kind, and tags every other token (including the empty string) `'Word'` with
its text unchanged (no space appended); the text-only variant in
`parsing/helpers.py` removes a final marker character and appends a single
trailing space to every other token, but returns no kind at all. -/
theorem C5_break_classification_split (text : List Char) :
    (∀ c kind, text.getLast? = some c → ELM_BREAK_TYPE_MAPPING c = some kind →
        CueReader.text_with_break_type text = (text.dropLast, kind)
          ∧ ParsingHelpers.text_with_break_type text = text.dropLast)
      ∧ (∀ c, text.getLast? = some c → ELM_BREAK_TYPE_MAPPING c = none →
          CueReader.text_with_break_type text = (text, "Word")
            ∧ ParsingHelpers.text_with_break_type text = text ++ [' '])
      ∧ (text = [] →
          CueReader.text_with_break_type text = ([], "Word")
            ∧ ParsingHelpers.text_with_break_type text = [' ']) := by
  refine ⟨?_, ?_, ?_⟩
  · intro c kind hlast hmap
    constructor
    · simp [CueReader.text_with_break_type, hlast, hmap]
    · have hmem : c ∈ breakMarkerValues := by
        simp only [ELM_BREAK_TYPE_MAPPING] at hmap
        by_cases h1 : c = '•'
        · simp [breakMarkerValues, h1]
        · by_cases h2 : c = '¬'
          · simp [breakMarkerValues, h2]
          · by_cases h3 : c = '¶'
            · simp [breakMarkerValues, h3]
            · simp [h1, h2, h3] at hmap
      simp [ParsingHelpers.text_with_break_type, hlast, hmem]
  · intro c hlast hmap
    have hnmem : c ∉ breakMarkerValues := by
      intro hmem
      simp only [breakMarkerValues, List.mem_cons, List.not_mem_nil,
        or_false] at hmem
      rcases hmem with h | h | h <;> simp [ELM_BREAK_TYPE_MAPPING, h] at hmap
    have hnsyl : ¬(c = BREAK_TYPE_MAPPING "Syllable") := by
      intro h
      exact hnmem (by simp [breakMarkerValues, BREAK_TYPE_MAPPING] at h ⊢; simp [h])
    constructor
    · simp [CueReader.text_with_break_type, hlast, hmap]
    · simp [ParsingHelpers.text_with_break_type, hlast, hnmem, hnsyl]
  · intro h
    subst h
    constructor
    · rfl
    · rfl

/-- Witness for the amended C5 at the concrete inputs `"He•"` (a Syllable
marker) and `"a"` (no marker). -/
theorem C5_amended_witness :
    (CueReader.text_with_break_type ['H', 'e', '•']
        = (['H', 'e', '•'].dropLast, "Syllable")
      ∧ ParsingHelpers.text_with_break_type ['H', 'e', '•']
        = ['H', 'e', '•'].dropLast)
      ∧ (CueReader.text_with_break_type ['a'] = (['a'], "Word")
        ∧ ParsingHelpers.text_with_break_type ['a'] = ['a'] ++ [' ']) :=
  ⟨(C5_break_classification_split ['H', 'e', '•']).1 '•' "Syllable" rfl rfl,
    (C5_break_classification_split ['a']).2.1 'a' rfl rfl⟩

end BreakClassifierClaims

section MergedStreamClaims

open CueReader CueReader.EventStream

theorem StreamEvent.position_tempo (e : TempoEvent) :
    (StreamEvent.tempo e).position = e.position := rfl

theorem StreamEvent.position_sig (e : TimeSignatureEvent) :
    (StreamEvent.sig e).position = e.position := rfl

theorem StreamEvent.position_note (e : NoteEvent) :
    (StreamEvent.note e).position = e.position := rfl

/-- Stability of the merge sort on a class of pairwise-comparable-equal
elements: filtering by a predicate that forces mutual comparability
commutes with sorting. -/
theorem mergeSort_filter_stable {α : Type} (le : α → α → Bool)
    (trans : ∀ a b c : α, le a b = true → le b c = true → le a c = true)
    (total : ∀ a b : α, (le a b || le b a) = true)
    (l : List α) (pred : α → Bool)
    (hpred : ∀ a b : α, pred a = true → pred b = true → le a b = true) :
    (l.mergeSort le).filter pred = l.filter pred := by
  have hc : (l.filter pred).Pairwise (fun a b => le a b = true) := by
    refine List.pairwise_of_forall_mem_list ?_
    intro a ha b hb
    exact hpred a b (List.mem_filter.mp ha).2 (List.mem_filter.mp hb).2
  have h1 : (l.filter pred).Sublist (l.mergeSort le) :=
    List.sublist_mergeSort trans total hc (List.filter_sublist l)
  have h2 : (l.filter pred).filter pred = l.filter pred :=
    List.filter_eq_self.mpr (fun a ha => (List.mem_filter.mp ha).2)
  have h3 : (l.filter pred).Sublist ((l.mergeSort le).filter pred) := by
    have := h1.filter pred
    rwa [h2] at this
  have h4 : ((l.mergeSort le).filter pred).length = (l.filter pred).length :=
    ((l.mergeSort_perm le).filter pred).length_eq
  exact (h3.eq_of_length h4.symm).symm

/-- C4: the merged stream is sorted by the lexicographic position order,
and for every position `p` the events of the stream at `p` are exactly the
tempo changes at `p` in input order, then the meter changes at `p` in input
order, then the payloads at `p` in input order — change events ahead of
payload events, by the stability of the sort over the chained input. -/
theorem C4_merged_stream_sorted_and_stable_ties
    (tempos : List TempoEvent) (signatures : List TimeSignatureEvent)
    (events : List NoteEvent) (p : Position) :
    (mergedStream tempos signatures events).Pairwise
        (fun a b => posLe a.position b.position = true)
      ∧ (mergedStream tempos signatures events).filter
          (fun e => decide (e.position = p))
        = (tempos.filter (fun e => decide (e.position = p))).map
              StreamEvent.tempo
            ++ (signatures.filter (fun e => decide (e.position = p))).map
              StreamEvent.sig
            ++ (events.filter (fun e => decide (e.position = p))).map
              StreamEvent.note := by
  have trans : ∀ a b c : StreamEvent,
      posLe a.position b.position = true → posLe b.position c.position = true →
      posLe a.position c.position = true :=
    fun a b c hab hbc => posLe_trans a.position b.position c.position hab hbc
  have total : ∀ a b : StreamEvent,
      (posLe a.position b.position || posLe b.position a.position) = true :=
    fun a b => posLe_total a.position b.position
  constructor
  · exact List.sorted_mergeSort trans total _
  · unfold mergedStream
    rw [mergeSort_filter_stable _ trans total _ _
      (fun a b (ha : decide (a.position = p) = true)
          (hb : decide (b.position = p) = true) => by
        rw [decide_eq_true_eq] at ha hb
        rw [ha, hb]
        exact posLe_refl p)]
    rw [List.filter_append, List.filter_append,
      List.filter_map, List.filter_map, List.filter_map]
    have e1 : ((fun e : StreamEvent => decide (e.position = p))
        ∘ StreamEvent.tempo) = fun e : TempoEvent => decide (e.position = p) :=
      rfl
    have e2 : ((fun e : StreamEvent => decide (e.position = p))
        ∘ StreamEvent.sig)
        = fun e : TimeSignatureEvent => decide (e.position = p) := rfl
    have e3 : ((fun e : StreamEvent => decide (e.position = p))
        ∘ StreamEvent.note) = fun e : NoteEvent => decide (e.position = p) :=
      rfl
    rw [e1, e2, e3]

end MergedStreamClaims

namespace CueReader

/-- Whether a merged stream element is a payload (note) event, i.e. has the
`length` attribute that `event_times` probes for before yielding. -/
def StreamEvent.isNote : StreamEvent → Bool
  | .note _ => true
  | _ => false

/-- Model of the Python values that `main` hands to `json.dump`: strings,
floats, `timedelta` objects, lists and string-keyed dicts. -/
inductive PyVal where
  | str (s : List Char)
  | float (q : ℚ)
  | timedelta (us : ℤ)
  | list (entries : List PyVal)
  | dict (entries : List (String × PyVal))
deriving Repr

mutual

/-- Model of whether `json.dump` accepts a value: the default JSON encoder
serializes strings, floats, lists and dicts, and raises `TypeError` on any
`timedelta` object anywhere inside the value. -/
def jsonSerializable : PyVal → Bool
  | .str _ => true
  | .float _ => true
  | .timedelta _ => false
  | .list es => jsonSerializableList es
  | .dict es => jsonSerializableEntries es

def jsonSerializableList : List PyVal → Bool
  | [] => true
  | v :: vs => jsonSerializable v && jsonSerializableList vs

def jsonSerializableEntries : List (String × PyVal) → Bool
  | [] => true
  | e :: es => jsonSerializable e.2 && jsonSerializableEntries es

end

/-- Model of `output_list` in `main`: one dict per emitted payload event,
with the `'text'` key holding the title string and the `'time'` key holding
the raw `timedelta` object produced by `event_times` (the source does not
convert it to seconds on this path). -/
def outputList (tempos : List TempoEvent) (signatures : List TimeSignatureEvent)
    (events : List NoteEvent) : List PyVal :=
  (EventStream.event_times tempos signatures events 120).map
    (fun te => PyVal.dict
      [("text", PyVal.str te.2.title), ("time", PyVal.timedelta te.1)])

/-- The value passed to `json.dump` on the flat JSON output path of `main`. -/
def flatJsonValue (tempos : List TempoEvent)
    (signatures : List TimeSignatureEvent) (events : List NoteEvent) : PyVal :=
  PyVal.list (outputList tempos signatures events)

end CueReader

section FlatOutputClaims

open CueReader CueReader.EventStream

theorem run_length (stream : List StreamEvent) : ∀ s : EventStream.State,
    (run s stream).length = stream.countP StreamEvent.isNote := by
  induction stream with
  | nil => intro s; rfl
  | cons ev rest ih =>
      intro s
      cases ev with
      | tempo e =>
          simp only [run, step, List.countP_cons]
          rw [ih]
          rfl
      | sig e =>
          simp only [run, step, List.countP_cons]
          rw [ih]
          rfl
      | note e =>
          simp only [run, step, List.countP_cons, List.length_cons]
          rw [ih]
          rfl

theorem event_times_length (tempos : List TempoEvent)
    (signatures : List TimeSignatureEvent) (events : List NoteEvent)
    (d : ℚ) :
    (event_times tempos signatures events d).length = events.length := by
  unfold event_times mergedStream
  rw [run_length]
  rw [((tempos.map StreamEvent.tempo ++ signatures.map StreamEvent.sig
      ++ events.map StreamEvent.note).mergeSort_perm _).countP_eq]
  rw [List.countP_append, List.countP_append]
  have h1 : (tempos.map StreamEvent.tempo).countP StreamEvent.isNote = 0 := by
    rw [List.countP_eq_zero]
    intro a ha
    obtain ⟨e, _, rfl⟩ := List.mem_map.mp ha
    simp [StreamEvent.isNote]
  have h2 : (signatures.map StreamEvent.sig).countP StreamEvent.isNote = 0 := by
    rw [List.countP_eq_zero]
    intro a ha
    obtain ⟨e, _, rfl⟩ := List.mem_map.mp ha
    simp [StreamEvent.isNote]
  have h3 : (events.map StreamEvent.note).countP StreamEvent.isNote
      = events.length := by
    have : (events.map StreamEvent.note).countP StreamEvent.isNote
        = (events.map StreamEvent.note).length := by
      rw [List.countP_eq_length]
      intro a ha
      obtain ⟨e, _, rfl⟩ := List.mem_map.mp ha
      rfl
    rw [this, List.length_map]
  rw [h1, h2, h3]
  omega

end FlatOutputClaims

section FlatOutputBugClaims

open CueReader CueReader.EventStream

/-- C8: the claim that the JSON output path writes one object per payload
with the `'time'` key holding seconds-as-float fails on the code: `main`
puts the raw `timedelta` objects into `output_list`, and the default JSON
encoder rejects `timedelta`, so for every input with at least one payload
event the value handed to `json.dump` is unserializable (Python raises
`TypeError` instead of writing the claimed array). -/
theorem C8_flat_json_value_not_serializable
    (tempos : List TempoEvent) (signatures : List TimeSignatureEvent)
    (events : List NoteEvent) (hne : events ≠ []) :
    jsonSerializable (flatJsonValue tempos signatures events) = false := by
  have hlen : (event_times tempos signatures events 120).length
      = events.length := event_times_length tempos signatures events 120
  cases hev : event_times tempos signatures events 120 with
  | nil =>
      rw [hev] at hlen
      exact absurd (List.length_eq_zero.mp hlen.symm) hne
  | cons hd tl =>
      unfold flatJsonValue outputList
      rw [hev]
      simp only [List.map_cons, jsonSerializable, jsonSerializableList,
        jsonSerializableEntries, Bool.true_and, Bool.false_and,
        Bool.and_false, Bool.false_eq_true]

/-- Witness for C8 at a concrete input with a single payload event. -/
theorem C8_witness :
    ([(⟨Position.mk 0 0 0 0, ['a'], 1, EventLength.mk 0 0 0 0⟩ : NoteEvent)]
        ≠ [])
      ∧ jsonSerializable (flatJsonValue [] []
          [⟨Position.mk 0 0 0 0, ['a'], 1, EventLength.mk 0 0 0 0⟩]) = false :=
  ⟨by decide,
    C8_flat_json_value_not_serializable [] []
      [⟨Position.mk 0 0 0 0, ['a'], 1, EventLength.mk 0 0 0 0⟩] (by decide)⟩

/-- C9: the claim that a tempo <= 0 is rejected before any
position-to-time computation fails on the code: no validation exists, and
with a tempo change to -60 at the origin followed by a payload one bar
later, the conversion silently computes and emits the negative absolute
time -4000000 microseconds. -/
theorem C9_negative_tempo_not_rejected :
    event_times [⟨Position.mk1 1 1 1 1, -60, 0⟩] []
        [⟨Position.mk1 2 1 1 1, ['x'], 1, EventLength.mk 0 0 0 0⟩] 120
      = [(-4000000, ⟨Position.mk1 2 1 1 1, ['x'], 1, EventLength.mk 0 0 0 0⟩)]
      ∧ (-4000000 : ℤ) < 0 := by
  refine ⟨?_, by decide⟩
  have hmerge : mergedStream [⟨Position.mk1 1 1 1 1, -60, 0⟩] []
      [⟨Position.mk1 2 1 1 1, ['x'], 1, EventLength.mk 0 0 0 0⟩]
      = [StreamEvent.tempo ⟨Position.mk1 1 1 1 1, -60, 0⟩,
        StreamEvent.note ⟨Position.mk1 2 1 1 1, ['x'], 1,
          EventLength.mk 0 0 0 0⟩] := by
    unfold mergedStream
    simp only [List.map_cons, List.map_nil, List.nil_append,
      List.cons_append, List.append_nil]
    refine List.mergeSort_of_sorted ?_
    refine List.pairwise_cons.mpr ⟨?_, List.pairwise_singleton _ _⟩
    intro b hb
    rw [List.mem_singleton.mp hb]
    decide
  have e1 : Position.to_timedelta (Position.mk1 2 1 1 1) (-60)
      (TimeSignature.mk 4 4) = -4000000 := by
    unfold Position.to_timedelta
    refine ratTrunc_eq_of_eq_intCast ?_
    norm_num [Position.mk1, int_to_zero_index, strip_int_trailing_period,
      seconds_per_beat, TICKS_PER_BEAT]
  have e0 : Position.to_timedelta (Position.mk1 1 1 1 1) (-60)
      (TimeSignature.mk 4 4) = 0 := by
    unfold Position.to_timedelta
    refine ratTrunc_eq_of_eq_intCast ?_
    norm_num [Position.mk1, int_to_zero_index, strip_int_trailing_period,
      seconds_per_beat, TICKS_PER_BEAT]
  unfold event_times
  rw [hmerge]
  simp only [run, step, computeTime, initState]
  rw [e1, e0]
  simp only [List.cons.injEq, Prod.mk.injEq, and_true]
  ring

end FlatOutputBugClaims
